import Mathlib

/-!
Verification of the segmented commit-log storage engine.

The embedding follows the Go sources: `Segment` operations come from
WriteALogPackage/internal/log/segment.go and the `Log` operations come from
the log implementation shipped alongside the gRPC server package.  The store,
the index, the configuration record and the protobuf record serialization are
not part of the given sources; they are modelled from the specification
(sections 4.1, 4.2 and 6) and their doc comments say so.

Machine integers are modelled as `Nat` with explicit reductions modulo
4294967296 (2 to the 32) and 18446744073709551616 (2 to the 64) exactly where
the Go code converts between integer widths.
-/

set_option maxHeartbeats 1600000

namespace DistLog

/-- Modelled from the spec (section 6, store file format): eight-byte
big-endian encoding of a natural number, reduced modulo 2 to the 64. -/
def enc8 (n : Nat) : List Nat :=
  [n / 72057594037927936 % 256, n / 281474976710656 % 256,
   n / 1099511627776 % 256, n / 4294967296 % 256,
   n / 16777216 % 256, n / 65536 % 256, n / 256 % 256, n % 256]

/-- Modelled from the spec: big-endian decoding, inverse of `enc8` below
2 to the 64. -/
def dec8 (bs : List Nat) : Nat := bs.foldl (fun a b => a * 256 + b) 0

/-- The record of the api package: an opaque payload plus the offset stamped
by the segment at append time.  Modelled from the spec (section 3). -/
structure Record where
  Value : List Nat
  Offset : Nat
  deriving DecidableEq, Repr

/-- Modelled from the spec: the protobuf serialization of a record is opaque
to this engine; we model it as an injective encoding holding the offset field
in eight big-endian bytes followed by the raw payload. -/
def Marshal (r : Record) : List Nat := enc8 r.Offset ++ r.Value

/-- Modelled from the spec: deserialization, inverse of `Marshal`. -/
def Unmarshal (p : List Nat) : Record := ⟨p.drop 8, dec8 (p.take 8)⟩

/-- Configuration, modelled from the spec (section 6): capacities of the two
segment files plus the first offset assigned to an empty log. -/
structure SegmentLimits where
  MaxStoreBytes : Nat
  MaxIndexBytes : Nat
  InitialOffset : Nat
  deriving DecidableEq, Repr

structure Config where
  Segment : SegmentLimits
  deriving DecidableEq, Repr

/-- Modelled from the spec (section 4.1): the store is one append-only file
of length-prefixed entries; we keep the file contents as a byte list. -/
structure Store where
  data : List Nat
  deriving DecidableEq, Repr

/-- The running size counter of the store equals the file size in bytes. -/
def Store.size (s : Store) : Nat := s.data.length

/-- Modelled from the spec (section 4.1): append writes the eight-byte
big-endian length followed by the payload, returning the number of bytes
written and the byte position at which the entry begins. -/
def Store.Append (s : Store) (p : List Nat) : Store × Nat × Nat :=
  (⟨s.data ++ (enc8 p.length ++ p)⟩, 8 + p.length, s.size)

/-- Modelled from the spec (section 4.1): read the length header at `pos`,
then exactly that many bytes; fails when out of file bounds. -/
def Store.Read (s : Store) (pos : Nat) : Option (List Nat) :=
  if pos + 8 ≤ s.data.length then
    let len := dec8 ((s.data.drop pos).take 8)
    if pos + 8 + len ≤ s.data.length then some ((s.data.drop (pos + 8)).take len)
    else none
  else none

/-- Width in bytes of one index entry: four bytes of relative offset plus
eight bytes of store position (spec section 6). -/
def entWidth : Nat := 12

/-- Modelled from the spec (section 4.2): the index is the logical list of
entries of the memory-mapped file, paired with the mapped capacity. -/
structure Index where
  entries : List (Nat × Nat)
  maxIndexBytes : Nat
  deriving DecidableEq, Repr

/-- Logical size of the index in bytes. -/
def Index.size (ix : Index) : Nat := ix.entries.length * entWidth

/-- Modelled from the spec (section 4.2): fails when one more entry would
exceed the mapped capacity, otherwise appends the entry. -/
def Index.Write (ix : Index) (rel pos : Nat) : Option Index :=
  if ix.maxIndexBytes < ix.size + entWidth then none
  else some ⟨ix.entries ++ [(rel, pos)], ix.maxIndexBytes⟩

/-- Modelled from the spec (section 4.2): relative offset -1 resolves to the
last entry; fails when the resolved index is negative or beyond the logical
size. -/
def Index.Read (ix : Index) (rel : Int) : Option (Nat × Nat) :=
  let j : Int := if rel = -1 then (ix.entries.length : Int) - 1 else rel
  if j < 0 ∨ (ix.entries.length : Int) ≤ j then none
  else ix.entries[j.toNat]?

/-- From segment.go: a segment owns one store and one index and tracks the
absolute offset range it covers. -/
structure Segment where
  store : Store
  index : Index
  baseOffset : Nat
  nextOffset : Nat
  config : Config
  deriving DecidableEq, Repr

/-- Interpretation of a uint64 bit pattern as a Go int64 value. -/
def toInt64 (u : Nat) : Int :=
  if u < 9223372036854775808 then (u : Int) else (u : Int) - 18446744073709551616

/-- From segment.go, newSegment (lines 25 to 59): opening a segment over
existing store and index states recovers `nextOffset` from the last index
entry, or uses the base offset when the index is empty.  File opening is
modelled by passing the persisted store and index states directly. -/
def newSegment (st : Store) (ix : Index) (baseOffset : Nat) (c : Config) : Segment :=
  { store := st
    index := ix
    baseOffset := baseOffset
    nextOffset :=
      match ix.Read (-1) with
      | none => baseOffset
      | some e => baseOffset + e.1 + 1
    config := c }

def emptyStore : Store := ⟨[]⟩

def emptyIndex (c : Config) : Index := ⟨[], c.Segment.MaxIndexBytes⟩

/-- A segment over freshly created (empty) files. -/
def freshSegment (c : Config) (baseOffset : Nat) : Segment :=
  newSegment emptyStore (emptyIndex c) baseOffset c

/-- From segment.go, Append (lines 71 to 92): stamp the next offset onto the
record, append the serialization to the store, write the relative index
entry (a uint32 in Go, hence the reduction), advance the next offset and
return the assigned offset. -/
def Segment.Append (s : Segment) (r : Record) : Option (Segment × Nat) :=
  let cur := s.nextOffset
  let p := Marshal { r with Offset := cur }
  let ap := s.store.Append p
  match s.index.Write ((s.nextOffset - s.baseOffset) % 4294967296) ap.2.2 with
  | none => none
  | some ix =>
      some ({ s with store := ap.1, index := ix, nextOffset := s.nextOffset + 1 }, cur)

inductive LogError where
  | offsetOutOfRange (off : Nat)
  | indexOutOfRange
  | storeOutOfBounds
  deriving DecidableEq, Repr

inductive ReadResult where
  | ok (r : Record)
  | error (e : LogError)
  deriving DecidableEq, Repr

/-- From segment.go, Read (lines 101 to 113): converts the absolute offset
to a relative one (uint64 subtraction, read back as int64), looks up the
index entry and reads the store at the recorded position. -/
def Segment.Read (s : Segment) (off : Nat) : ReadResult :=
  match s.index.Read (toInt64 ((off + 18446744073709551616 - s.baseOffset) %
      18446744073709551616)) with
  | none => ReadResult.error LogError.indexOutOfRange
  | some e =>
      match s.store.Read e.2 with
      | none => ReadResult.error LogError.storeOutOfBounds
      | some p => ReadResult.ok (Unmarshal p)

/-- From segment.go, IsMaxed (lines 121 to 123). -/
def Segment.IsMaxed (s : Segment) : Bool :=
  decide (s.config.Segment.MaxStoreBytes ≤ s.store.size) ||
  decide (s.config.Segment.MaxIndexBytes < s.index.size + entWidth)

/-- From the log implementation: an ordered list of segments; the active
segment is the last one. -/
structure Log where
  config : Config
  segments : List Segment
  deriving DecidableEq, Repr

/-- From NewLog (log lines 79 to 92): the configuration defaulting performed
before setup.  Note the first branch tests MaxStoreBytes but assigns
MaxIndexBytes, exactly as the source does. -/
def NewLogConfig (c : Config) : Config :=
  let c1 :=
    if c.Segment.MaxStoreBytes = 0 then
      { c with Segment := { c.Segment with MaxIndexBytes := 1024 } }
    else c
  if c1.Segment.MaxIndexBytes = 0 then
    { c1 with Segment := { c1.Segment with MaxIndexBytes := 1024 } }
  else c1

/-- NewLog over an empty directory: setup finds no files and creates one
fresh segment at the configured initial offset. -/
def NewLog (c : Config) : Log :=
  let c1 := NewLogConfig c
  { config := c1, segments := [freshSegment c1 c1.Segment.InitialOffset] }

/-- From Log.Append (log lines 139 to 150): when the active (last) segment
is maxed, a new segment is created at its next offset and becomes active;
the record is then appended to the active segment. -/
def Log.Append (l : Log) (r : Record) : Option (Log × Nat) :=
  match l.segments.getLast? with
  | none => none
  | some act =>
      if act.IsMaxed then
        match (freshSegment l.config act.nextOffset).Append r with
        | none => none
        | some sr => some ({ l with segments := l.segments ++ [sr.1] }, sr.2)
      else
        match act.Append r with
        | none => none
        | some sr => some ({ l with segments := l.segments.dropLast ++ [sr.1] }, sr.2)

/-- The scan of Log.Read (log lines 156 to 161): first segment whose range
covers the offset. -/
def findSegment : List Segment → Nat → Option Segment
  | [], _ => none
  | s :: rest, off =>
      if s.baseOffset ≤ off ∧ off < s.nextOffset then some s
      else findSegment rest off

/-- From Log.Read (log lines 152 to 166), factored over the segment list. -/
def readSegments (segs : List Segment) (off : Nat) : ReadResult :=
  match findSegment segs off with
  | none => ReadResult.error (LogError.offsetOutOfRange off)
  | some s =>
      if s.nextOffset ≤ off then ReadResult.error (LogError.offsetOutOfRange off)
      else s.Read off

def Log.Read (l : Log) (off : Nat) : ReadResult := readSegments l.segments off

/-- From Log.LowestOffset (log lines 206 to 210). -/
def Log.LowestOffset (l : Log) : Option Nat :=
  l.segments.head?.map fun s => s.baseOffset

/-- From Log.HighestOffset (log lines 212 to 220). -/
def Log.HighestOffset (l : Log) : Option Nat :=
  l.segments.getLast?.map fun s => if s.nextOffset = 0 then 0 else s.nextOffset - 1

/-- From Log.Truncate (log lines 226 to 241): keep exactly the segments whose
next offset exceeds lowest + 1; the removed ones have their files deleted. -/
def Log.Truncate (l : Log) (lowest : Nat) : Log :=
  { l with segments := l.segments.filter fun s => decide (lowest + 1 < s.nextOffset) }

/-- Closing and reopening the log directory: Close trims each index to its
logical size (a no-op on the logical index state) and setup reconstructs one
segment per base offset, in ascending order, from the persisted files (log
lines 94 to 127, assuming each base offset contributes its store and index
file pair). -/
def Log.reopen (l : Log) : Log :=
  { l with segments := l.segments.map fun s => newSegment s.store s.index s.baseOffset l.config }

/-- A sequence of Append calls, recording the returned offsets; fails when
any single Append fails. -/
def Log.AppendAll : Log → List (List Nat) → Option (Log × List Nat)
  | l, [] => some (l, [])
  | l, v :: rest =>
      match l.Append ⟨v, 0⟩ with
      | none => none
      | some lo =>
          match Log.AppendAll lo.1 rest with
          | none => none
          | some lo2 => some (lo2.1, lo.2 :: lo2.2)

/-! ### Basic facts about the byte encodings -/

theorem enc8_length (n : Nat) : (enc8 n).length = 8 := rfl

theorem dec8_enc8 (n : Nat) : dec8 (enc8 n) = n % 18446744073709551616 := by
  simp [dec8, enc8]
  omega

theorem unmarshal_marshal (r : Record) (h : r.Offset < 18446744073709551616) :
    Unmarshal (Marshal r) = r := by
  unfold Unmarshal Marshal
  rw [← enc8_length r.Offset, List.drop_left, List.take_left, dec8_enc8,
    Nat.mod_eq_of_lt h]

/-! ### The shape of a well-formed segment

`storeBytes ps` is the store file holding the serialized payloads `ps` in
order, `idxEntries ps` the matching logical index contents, and
`SegInvP s base vsg c` says the segment `s` holds exactly the raw payloads
`vsg` at absolute offsets `base`, `base + 1`, and so on. -/

def entryBytes (p : List Nat) : List Nat := enc8 p.length ++ p

def storeBytes (ps : List (List Nat)) : List Nat := (ps.map entryBytes).flatten

def marshAll (base : Nat) : List (List Nat) → List (List Nat)
  | [] => []
  | v :: rest => Marshal ⟨v, base⟩ :: marshAll (base + 1) rest

def idxEntries (ps : List (List Nat)) : List (Nat × Nat) :=
  (List.range ps.length).map fun i => (i % 4294967296, (storeBytes (ps.take i)).length)

def SegInvP (s : Segment) (base : Nat) (vsg : List (List Nat)) (c : Config) : Prop :=
  s.baseOffset = base ∧ s.config = c ∧
  s.index.maxIndexBytes = c.Segment.MaxIndexBytes ∧
  s.nextOffset = base + vsg.length ∧
  s.store.data = storeBytes (marshAll base vsg) ∧
  s.index.entries = idxEntries (marshAll base vsg)

instance (s : Segment) (base : Nat) (vsg : List (List Nat)) (c : Config) :
    Decidable (SegInvP s base vsg c) := by
  unfold SegInvP
  infer_instance

theorem marshAll_length (base : Nat) (vs : List (List Nat)) :
    (marshAll base vs).length = vs.length := by
  induction vs generalizing base with
  | nil => rfl
  | cons v rest ih => simp [marshAll, ih]

theorem marshAll_snoc (base : Nat) (vs : List (List Nat)) (v : List Nat) :
    marshAll base (vs ++ [v]) = marshAll base vs ++ [Marshal ⟨v, base + vs.length⟩] := by
  induction vs generalizing base with
  | nil => simp [marshAll]
  | cons w rest ih =>
      have harith : base + 1 + rest.length = base + (rest.length + 1) := by omega
      show Marshal ⟨w, base⟩ :: marshAll (base + 1) (rest ++ [v])
          = Marshal ⟨w, base⟩ :: (marshAll (base + 1) rest
              ++ [Marshal ⟨v, base + (rest.length + 1)⟩])
      rw [ih (base + 1), harith]

theorem marshAll_getElem? (base : Nat) (vs : List (List Nat)) (i : Nat) :
    (marshAll base vs)[i]? = vs[i]?.map fun v => Marshal ⟨v, base + i⟩ := by
  induction vs generalizing base i with
  | nil => simp [marshAll]
  | cons w rest ih =>
      cases i with
      | zero => simp [marshAll]
      | succ j =>
          simp only [marshAll, List.getElem?_cons_succ, ih (base + 1) j]
          congr 2
          funext v
          congr 2
          omega

theorem storeBytes_snoc (ps : List (List Nat)) (p : List Nat) :
    storeBytes (ps ++ [p]) = storeBytes ps ++ entryBytes p := by
  simp [storeBytes]

theorem idxEntries_length (ps : List (List Nat)) : (idxEntries ps).length = ps.length := by
  simp [idxEntries]

theorem idxEntries_getElem? (ps : List (List Nat)) (i : Nat) (hi : i < ps.length) :
    (idxEntries ps)[i]? = some (i % 4294967296, (storeBytes (ps.take i)).length) := by
  simp [idxEntries, List.getElem?_map, List.getElem?_range hi]

theorem idxEntries_snoc (ps : List (List Nat)) (p : List Nat) :
    idxEntries (ps ++ [p])
      = idxEntries ps ++ [(ps.length % 4294967296, (storeBytes ps).length)] := by
  unfold idxEntries
  rw [List.length_append, List.length_cons, List.length_nil, Nat.zero_add,
    List.range_succ, List.map_append]
  congr 1
  · apply List.map_congr_left
    intro i hi
    rw [List.mem_range] at hi
    rw [List.take_append_of_le_length (Nat.le_of_lt hi)]
  · simp

theorem storeBytes_split (ps : List (List Nat)) (i : Nat) (p : List Nat)
    (h : ps[i]? = some p) :
    storeBytes ps
      = storeBytes (ps.take i) ++ entryBytes p ++ storeBytes (ps.drop (i + 1)) := by
  have hi : i < ps.length := by
    by_contra hlt
    rw [List.getElem?_eq_none (Nat.le_of_not_lt hlt)] at h
    exact Option.noConfusion h
  have hps : ps = ps.take i ++ p :: ps.drop (i + 1) := by
    conv_lhs => rw [← List.take_append_drop i ps]
    congr 1
    rw [List.drop_eq_getElem_cons hi]
    congr 1
    rw [List.getElem?_eq_getElem hi] at h
    exact (Option.some.injEq _ _).mp h
  conv_lhs => rw [hps]
  simp [storeBytes, List.append_assoc]

/-! ### Reading one entry back out of the store -/

theorem store_read_entry (pre p post : List Nat) (hp : p.length < 18446744073709551616) :
    Store.Read ⟨pre ++ entryBytes p ++ post⟩ pre.length = some p := by
  have hdata1 : pre ++ entryBytes p ++ post = pre ++ (enc8 p.length ++ (p ++ post)) := by
    simp [entryBytes, List.append_assoc]
  have hdrop1 : (pre ++ entryBytes p ++ post).drop pre.length
      = enc8 p.length ++ (p ++ post) := by
    rw [hdata1, List.drop_left]
  have htake1 : (enc8 p.length ++ (p ++ post)).take 8 = enc8 p.length := by
    rw [← enc8_length p.length, List.take_left]
  have hdrop2 : (pre ++ entryBytes p ++ post).drop (pre.length + 8) = p ++ post := by
    have h28 : pre.length + 8 = (pre ++ enc8 p.length).length := by
      simp [List.length_append, enc8_length]
    have hdata2 : pre ++ entryBytes p ++ post = (pre ++ enc8 p.length) ++ (p ++ post) := by
      simp [entryBytes, List.append_assoc]
    rw [hdata2, h28, List.drop_left]
  have hL : (pre ++ entryBytes p ++ post).length = pre.length + 8 + p.length + post.length := by
    simp [entryBytes, List.length_append, enc8_length]
    omega
  unfold Store.Read
  simp only [hdrop1, htake1, hdrop2, dec8_enc8, Nat.mod_eq_of_lt hp, hL]
  rw [if_pos (by omega), if_pos (by omega), List.take_left]

/-! ### Segment lemmas: the invariant is established, preserved and gives
back every record -/

theorem marshal_length (r : Record) : (Marshal r).length = 8 + r.Value.length := by
  simp [Marshal, List.length_append, enc8_length]

theorem store_eta (st : Store) : st = ⟨st.data⟩ := rfl

theorem seg_fresh_inv (c : Config) (base : Nat) :
    SegInvP (freshSegment c base) base [] c :=
  ⟨rfl, rfl, rfl, rfl, rfl, rfl⟩

theorem seg_append_some (s : Segment) (base : Nat) (ws : List (List Nat)) (c : Config)
    (v : List Nat) (o : Nat) (s2 : Segment) (off : Nat)
    (hinv : SegInvP s base ws c)
    (happ : s.Append ⟨v, o⟩ = some (s2, off)) :
    off = base + ws.length ∧ SegInvP s2 base (ws ++ [v]) c := by
  obtain ⟨hb, hc, hm, hn, hst, hix⟩ := hinv
  unfold Segment.Append at happ
  simp only [Index.Write, Store.Append] at happ
  by_cases hcap : s.index.maxIndexBytes < s.index.size + entWidth
  · rw [if_pos hcap] at happ
    exact absurd happ (by simp)
  · rw [if_neg hcap] at happ
    simp only [Option.some.injEq, Prod.mk.injEq] at happ
    obtain ⟨hs2, hoff⟩ := happ
    have hoff2 : off = base + ws.length := by omega
    refine ⟨hoff2, ?_, ?_, ?_, ?_, ?_, ?_⟩
    · rw [← hs2]; exact hb
    · rw [← hs2]; exact hc
    · rw [← hs2]; exact hm
    · rw [← hs2]
      show s.nextOffset + 1 = base + (ws ++ [v]).length
      rw [List.length_append, hn]
      simp only [List.length_cons, List.length_nil]
      omega
    · rw [← hs2]
      show s.store.data ++ (enc8 (Marshal ⟨v, s.nextOffset⟩).length ++ Marshal ⟨v, s.nextOffset⟩)
          = storeBytes (marshAll base (ws ++ [v]))
      rw [marshAll_snoc, storeBytes_snoc, hst, hn]
      rfl
    · rw [← hs2]
      show s.index.entries
            ++ [((s.nextOffset - s.baseOffset) % 4294967296, s.store.size)]
          = idxEntries (marshAll base (ws ++ [v]))
      rw [marshAll_snoc, idxEntries_snoc, hix, marshAll_length]
      have hsz : s.store.size = (storeBytes (marshAll base ws)).length := by
        unfold Store.size
        rw [hst]
      rw [hsz, hn, hb]
      have : base + ws.length - base = ws.length := by omega
      rw [this]

theorem seg_read_inv (s : Segment) (base : Nat) (ws : List (List Nat)) (c : Config)
    (i : Nat) (v : List Nat)
    (hinv : SegInvP s base ws c)
    (hget : ws[i]? = some v)
    (hbound : base + ws.length < 9223372036854775808)
    (hlens : ∀ w ∈ ws, 8 + w.length < 18446744073709551616) :
    s.Read (base + i) = ReadResult.ok ⟨v, base + i⟩ := by
  obtain ⟨hb, hc, hm, hn, hst, hix⟩ := hinv
  have hi : i < ws.length := by
    by_contra hlt
    rw [List.getElem?_eq_none (Nat.le_of_not_lt hlt)] at hget
    exact Option.noConfusion hget
  have hplen := marshAll_length base ws
  have hp : (marshAll base ws)[i]? = some (Marshal ⟨v, base + i⟩) := by
    rw [marshAll_getElem?, hget]
    rfl
  have hvmem : v ∈ ws := List.getElem?_mem hget
  have hlenp : (Marshal ⟨v, base + i⟩).length < 18446744073709551616 := by
    have := hlens v hvmem
    rw [marshal_length]
    show 8 + v.length < 18446744073709551616
    exact this
  unfold Segment.Read
  have harg : (base + i + 18446744073709551616 - s.baseOffset) % 18446744073709551616
      = i := by
    rw [hb]
    omega
  rw [harg]
  have htoi : toInt64 i = (i : Int) := by
    unfold toInt64
    rw [if_pos (by omega)]
  rw [htoi]
  have hread : s.index.Read (i : Int)
      = some (i % 4294967296, (storeBytes ((marshAll base ws).take i)).length) := by
    unfold Index.Read
    rw [hix, idxEntries_length, hplen]
    rw [if_neg (by omega), if_neg (by omega)]
    rw [Int.toNat_natCast]
    exact idxEntries_getElem? (marshAll base ws) i (by omega)
  rw [hread]
  have hstore2 : s.store = ⟨storeBytes (marshAll base ws)⟩ := by
    rw [← hst]
  have hsread : s.store.Read (storeBytes ((marshAll base ws).take i)).length
      = some (Marshal ⟨v, base + i⟩) := by
    rw [hstore2, storeBytes_split (marshAll base ws) i _ hp]
    exact store_read_entry _ _ _ hlenp
  show (match s.store.Read (storeBytes ((marshAll base ws).take i)).length with
    | none => ReadResult.error LogError.storeOutOfBounds
    | some p => ReadResult.ok (Unmarshal p)) = ReadResult.ok ⟨v, base + i⟩
  rw [hsread]
  show ReadResult.ok (Unmarshal (Marshal ⟨v, base + i⟩)) = ReadResult.ok ⟨v, base + i⟩
  rw [unmarshal_marshal _ (by show base + i < 18446744073709551616; omega)]

theorem seg_reopen (s : Segment) (base : Nat) (ws : List (List Nat)) (c : Config)
    (hinv : SegInvP s base ws c) (hsmall : ws.length ≤ 4294967296) :
    newSegment s.store s.index base c = s := by
  obtain ⟨hb, hc, hm, hn, hst, hix⟩ := hinv
  have hlen : s.index.entries.length = ws.length := by
    rw [hix, idxEntries_length, marshAll_length]
  have hnext :
      (match s.index.Read (-1) with
        | none => base
        | some e => base + e.1 + 1) = s.nextOffset := by
    unfold Index.Read
    rw [hlen]
    by_cases h0 : ws.length = 0
    · rw [if_pos rfl, if_pos (by omega)]
      rw [hn, h0]
      show base = base + 0
      rfl
    · rw [if_pos rfl, if_neg (by omega)]
      have htn : (((ws.length : Int) - 1)).toNat = ws.length - 1 := by omega
      rw [htn, hix]
      rw [idxEntries_getElem? (marshAll base ws) (ws.length - 1) (by rw [marshAll_length]; omega)]
      show base + (ws.length - 1) % 4294967296 + 1 = s.nextOffset
      rw [Nat.mod_eq_of_lt (by omega), hn]
      omega
  obtain ⟨st, ix, b0, n0, c0⟩ := s
  simp only at hb hc hm hn hst hix hnext
  unfold newSegment
  simp only [Segment.mk.injEq]
  exact ⟨trivial, trivial, hb.symm, hnext, hc.symm⟩

/-! ### The log invariant

`SegsInv c base vss segs` says the segment list `segs` holds the per-segment
payload lists `vss` at contiguous absolute offsets starting at `base`: each
segment satisfies `SegInvP` and the next segment starts where the previous
one ends. -/

def SegsInv (c : Config) : Nat → List (List (List Nat)) → List Segment → Prop
  | _, [], [] => True
  | base, ws :: vss, s :: segs =>
      SegInvP s base ws c ∧ SegsInv c (base + ws.length) vss segs
  | _, _, _ => False

instance instDecSegsInv (c : Config) :
    (base : Nat) → (vss : List (List (List Nat))) → (segs : List Segment) →
      Decidable (SegsInv c base vss segs)
  | _, [], [] => .isTrue trivial
  | _, [], _ :: _ => .isFalse fun h => h
  | _, _ :: _, [] => .isFalse fun h => h
  | base, ws :: vss, _ :: segs =>
      have : Decidable (SegsInv c (base + ws.length) vss segs) :=
        instDecSegsInv c (base + ws.length) vss segs
      inferInstanceAs (Decidable (_ ∧ _))

theorem segsInv_length (c : Config) (base : Nat) (vss : List (List (List Nat)))
    (segs : List Segment) (h : SegsInv c base vss segs) : vss.length = segs.length := by
  induction vss generalizing base segs with
  | nil =>
      cases segs with
      | nil => rfl
      | cons s ss => exact h.elim
  | cons ws vss ih =>
      cases segs with
      | nil => exact h.elim
      | cons s ss =>
          obtain ⟨h1, h2⟩ := h
          simp [ih _ _ h2]

theorem segsInv_head (c : Config) (base : Nat) (vss : List (List (List Nat)))
    (segs : List Segment) (h : SegsInv c base vss segs) (s : Segment)
    (hs : segs.head? = some s) : s.baseOffset = base := by
  cases segs with
  | nil => exact Option.noConfusion hs
  | cons t ss =>
      cases vss with
      | nil => exact h.elim
      | cons ws vss =>
          rw [List.head?_cons, Option.some.injEq] at hs
          rw [← hs]
          exact h.1.1

theorem segsInv_getLast (c : Config) (base : Nat) (vss : List (List (List Nat)))
    (segs : List Segment) (h : SegsInv c base vss segs) (s : Segment)
    (hs : segs.getLast? = some s) : s.nextOffset = base + vss.flatten.length := by
  induction vss generalizing base segs with
  | nil =>
      cases segs with
      | nil => exact Option.noConfusion hs
      | cons t ss => exact h.elim
  | cons ws vss ih =>
      cases segs with
      | nil => exact h.elim
      | cons t ss =>
          obtain ⟨h1, h2⟩ := h
          cases ss with
          | nil =>
              cases vss with
              | nil =>
                  rw [List.getLast?_singleton, Option.some.injEq] at hs
                  rw [← hs]
                  simp only [List.flatten_cons, List.flatten_nil, List.append_nil]
                  exact h1.2.2.2.1
              | cons ws2 vss2 => exact h2.elim
          | cons t2 ss2 =>
              rw [List.getLast?_cons_cons] at hs
              have := ih (base + ws.length) (t2 :: ss2) h2 hs
              rw [this]
              simp only [List.flatten_cons, List.length_append]
              omega

theorem segsInv_snoc (c : Config) (base : Nat) (vss : List (List (List Nat)))
    (segs : List Segment) (ws : List (List Nat)) (s : Segment)
    (h : SegsInv c base vss segs)
    (hs : SegInvP s (base + vss.flatten.length) ws c) :
    SegsInv c base (vss ++ [ws]) (segs ++ [s]) := by
  induction vss generalizing base segs with
  | nil =>
      cases segs with
      | nil =>
          refine ⟨?_, trivial⟩
          simpa using hs
      | cons t ss => exact h.elim
  | cons ws0 vss ih =>
      cases segs with
      | nil => exact h.elim
      | cons t ss =>
          obtain ⟨h1, h2⟩ := h
          refine ⟨h1, ih (base + ws0.length) ss h2 ?_⟩
          have harith : base + ws0.length + vss.flatten.length
              = base + (ws0 :: vss).flatten.length := by
            simp only [List.flatten_cons, List.length_append]
            omega
          rw [harith]
          exact hs

theorem segsInv_snoc_inv (c : Config) (base : Nat) (vss : List (List (List Nat)))
    (segs : List Segment) (s : Segment)
    (h : SegsInv c base vss (segs ++ [s])) :
    ∃ vss0 ws, vss = vss0 ++ [ws] ∧ SegsInv c base vss0 segs ∧
      SegInvP s (base + vss0.flatten.length) ws c := by
  induction segs generalizing base vss with
  | nil =>
      cases vss with
      | nil => exact h.elim
      | cons ws vss2 =>
          obtain ⟨h1, h2⟩ := h
          cases vss2 with
          | nil =>
              refine ⟨[], ws, rfl, trivial, ?_⟩
              simpa using h1
          | cons ws2 vss3 => exact h2.elim
  | cons t rest ih =>
      cases vss with
      | nil => exact h.elim
      | cons wt vss2 =>
          obtain ⟨h1, h2⟩ := h
          obtain ⟨vss0, ws, hveq, hinv0, hsp⟩ := ih (base + wt.length) vss2 h2
          refine ⟨wt :: vss0, ws, by rw [hveq]; rfl, ⟨h1, hinv0⟩, ?_⟩
          have harith : base + wt.length + vss0.flatten.length
              = base + (wt :: vss0).flatten.length := by
            simp only [List.flatten_cons, List.length_append]
            omega
          rw [← harith]
          exact hsp

theorem findSegment_cons (s : Segment) (ss : List Segment) (off : Nat) :
    findSegment (s :: ss) off
      = if s.baseOffset ≤ off ∧ off < s.nextOffset then some s
        else findSegment ss off := rfl

theorem readSegments_cons_skip (s : Segment) (ss : List Segment) (off : Nat)
    (h : ¬(s.baseOffset ≤ off ∧ off < s.nextOffset)) :
    readSegments (s :: ss) off = readSegments ss off := by
  unfold readSegments
  rw [findSegment_cons, if_neg h]

theorem segsInv_read_at (c : Config) (base : Nat) (vss : List (List (List Nat)))
    (segs : List Segment) (h : SegsInv c base vss segs)
    (i : Nat) (v : List Nat) (hget : vss.flatten[i]? = some v)
    (hb : base + vss.flatten.length < 9223372036854775808)
    (hlens : ∀ w ∈ vss.flatten, 8 + w.length < 18446744073709551616) :
    readSegments segs (base + i) = ReadResult.ok ⟨v, base + i⟩ := by
  induction vss generalizing base segs i with
  | nil => simp at hget
  | cons ws vss ih =>
      cases segs with
      | nil => exact h.elim
      | cons s ss =>
          obtain ⟨h1, h2⟩ := h
          rw [List.flatten_cons] at hget hb hlens
          rw [List.length_append] at hb
          by_cases hi : i < ws.length
          · rw [List.getElem?_append_left hi] at hget
            have hcov : s.baseOffset ≤ base + i ∧ base + i < s.nextOffset := by
              rw [h1.1, h1.2.2.2.1]
              omega
            unfold readSegments findSegment
            rw [if_pos hcov]
            show (if s.nextOffset ≤ base + i then
                ReadResult.error (LogError.offsetOutOfRange (base + i))
              else s.Read (base + i)) = ReadResult.ok ⟨v, base + i⟩
            rw [if_neg (by rw [h1.2.2.2.1]; omega)]
            exact seg_read_inv s base ws c i v h1 hget (by omega)
              (fun w hw => hlens w (List.mem_append_left _ hw))
          · rw [List.getElem?_append_right (Nat.le_of_not_lt hi)] at hget
            rw [readSegments_cons_skip s ss _ (by rw [h1.1, h1.2.2.2.1]; omega)]
            have harith : base + i = base + ws.length + (i - ws.length) := by omega
            rw [harith]
            exact ih (base + ws.length) ss h2 (i - ws.length) hget (by omega)
              (fun w hw => hlens w (List.mem_append_right _ hw))

theorem segsInv_read_low (c : Config) (base : Nat) (vss : List (List (List Nat)))
    (segs : List Segment) (h : SegsInv c base vss segs) (off : Nat) (hoff : off < base) :
    readSegments segs off = ReadResult.error (LogError.offsetOutOfRange off) := by
  induction vss generalizing base segs with
  | nil =>
      cases segs with
      | nil => rfl
      | cons s ss => exact h.elim
  | cons ws vss ih =>
      cases segs with
      | nil => exact h.elim
      | cons s ss =>
          obtain ⟨h1, h2⟩ := h
          rw [readSegments_cons_skip s ss _ (by rw [h1.1]; omega)]
          exact ih (base + ws.length) ss h2 (by omega)

theorem segsInv_read_high (c : Config) (base : Nat) (vss : List (List (List Nat)))
    (segs : List Segment) (h : SegsInv c base vss segs) (off : Nat)
    (hoff : base + vss.flatten.length ≤ off) :
    readSegments segs off = ReadResult.error (LogError.offsetOutOfRange off) := by
  induction vss generalizing base segs with
  | nil =>
      cases segs with
      | nil => rfl
      | cons s ss => exact h.elim
  | cons ws vss ih =>
      cases segs with
      | nil => exact h.elim
      | cons s ss =>
          obtain ⟨h1, h2⟩ := h
          rw [List.flatten_cons, List.length_append] at hoff
          rw [readSegments_cons_skip s ss _ (by rw [h1.2.2.2.1]; omega)]
          exact ih (base + ws.length) ss h2 (by omega)

/-! ### Appending through the log preserves the invariant -/

theorem log_append_inv (l : Log) (base : Nat) (vss : List (List (List Nat)))
    (hinv : SegsInv l.config base vss l.segments)
    (v : List Nat) (o : Nat) (l2 : Log) (off : Nat)
    (happ : l.Append ⟨v, o⟩ = some (l2, off)) :
    off = base + vss.flatten.length ∧ l2.config = l.config ∧ l2.segments ≠ [] ∧
    (∃ vss2, SegsInv l.config base vss2 l2.segments ∧
       vss2.flatten = vss.flatten ++ [v]) ∧
    (∀ act, l.segments.getLast? = some act →
       (act.IsMaxed = true →
          ∃ t, l2.segments = l.segments ++ [t] ∧ t.baseOffset = act.nextOffset ∧
            t.nextOffset = act.nextOffset + 1) ∧
       (act.IsMaxed = false → l2.segments.length = l.segments.length)) := by
  unfold Log.Append at happ
  split at happ
  · exact Option.noConfusion happ
  next act hlast =>
    rcases List.eq_nil_or_concat l.segments with hnil | ⟨segs0, act0, hconcat⟩
    · rw [hnil] at hlast
      exact Option.noConfusion hlast
    rw [List.concat_eq_append] at hconcat
    have hact0 : act0 = act := by
      rw [hconcat, List.getLast?_concat, Option.some.injEq] at hlast
      exact hlast
    subst hact0
    have hinv2 : SegsInv l.config base vss (segs0 ++ [act0]) := by
      rw [← hconcat]
      exact hinv
    obtain ⟨vss0, wact, hveq, hinv0, hspact⟩ := segsInv_snoc_inv _ _ _ _ _ hinv2
    have hflat : vss.flatten = vss0.flatten ++ wact := by
      rw [hveq]
      simp
    have hactnext : act0.nextOffset = base + vss.flatten.length := by
      have := hspact.2.2.2.1
      rw [hflat, List.length_append]
      omega
    split at happ
    case isTrue hmax =>
      split at happ
      · exact Option.noConfusion happ
      next sr heqapp =>
        rw [Option.some.injEq, Prod.mk.injEq] at happ
        obtain ⟨hl2, hoff⟩ := happ
        have hfresh : SegInvP (freshSegment l.config act0.nextOffset)
            act0.nextOffset [] l.config := seg_fresh_inv _ _
        obtain ⟨hoffv, hinvt⟩ :=
          seg_append_some _ _ _ _ v o sr.1 sr.2 hfresh heqapp
        have hinvt2 : SegInvP sr.1 (base + vss.flatten.length) [v] l.config := by
          rw [← hactnext]
          exact hinvt
        refine ⟨?_, ?_, ?_, ?_, ?_⟩
        · rw [← hoff, hoffv, hactnext]
          rfl
        · rw [← hl2]
        · rw [← hl2]
          simp
        · refine ⟨vss ++ [[v]], ?_, by simp⟩
          rw [← hl2]
          show SegsInv l.config base (vss ++ [[v]]) (l.segments ++ [sr.1])
          exact segsInv_snoc _ _ _ _ _ _ hinv hinvt2
        · intro act1 hlast1
          have hact1 : act1 = act0 := by
            rw [hlast] at hlast1
            exact (Option.some.injEq _ _).mp hlast1.symm
          subst hact1
          refine ⟨fun _ => ⟨sr.1, ?_, hinvt.1, ?_⟩, fun hfalse => ?_⟩
          · rw [← hl2]
          · rw [hinvt.2.2.2.1]
            rfl
          · rw [hmax] at hfalse
            exact Bool.noConfusion hfalse
    case isFalse hmax =>
      split at happ
      · exact Option.noConfusion happ
      next sr heqapp =>
        rw [Option.some.injEq, Prod.mk.injEq] at happ
        obtain ⟨hl2, hoff⟩ := happ
        obtain ⟨hoffv, hinvt⟩ :=
          seg_append_some _ _ _ _ v o sr.1 sr.2 hspact heqapp
        refine ⟨?_, ?_, ?_, ?_, ?_⟩
        · rw [← hoff, hoffv, hflat, List.length_append]
          omega
        · rw [← hl2]
        · rw [← hl2]
          simp
        · refine ⟨vss0 ++ [wact ++ [v]], ?_, ?_⟩
          · rw [← hl2]
            show SegsInv l.config base (vss0 ++ [wact ++ [v]])
              (l.segments.dropLast ++ [sr.1])
            rw [hconcat, List.dropLast_concat]
            exact segsInv_snoc _ _ _ _ _ _ hinv0 hinvt
          · rw [hflat]
            simp
        · intro act1 hlast1
          have hact1 : act1 = act0 := by
            rw [hlast] at hlast1
            exact (Option.some.injEq _ _).mp hlast1.symm
          subst hact1
          refine ⟨fun htrue => absurd htrue hmax, fun _ => ?_⟩
          rw [← hl2]
          show (l.segments.dropLast ++ [sr.1]).length = l.segments.length
          rw [hconcat, List.dropLast_concat]
          simp

theorem log_appendAll_inv (vs : List (List Nat)) (l : Log) (base : Nat)
    (vss : List (List (List Nat)))
    (hinv : SegsInv l.config base vss l.segments)
    (l2 : Log) (offs : List Nat)
    (h : l.AppendAll vs = some (l2, offs)) :
    l2.config = l.config ∧
    offs = List.range' (base + vss.flatten.length) vs.length ∧
    ∃ vss2, SegsInv l.config base vss2 l2.segments ∧
      vss2.flatten = vss.flatten ++ vs := by
  induction vs generalizing l vss l2 offs with
  | nil =>
      unfold Log.AppendAll at h
      rw [Option.some.injEq, Prod.mk.injEq] at h
      obtain ⟨hl, hoffs⟩ := h
      subst hl
      refine ⟨rfl, by rw [← hoffs]; rfl, vss, hinv, by simp⟩
  | cons v rest ih =>
      unfold Log.AppendAll at h
      split at h
      · exact Option.noConfusion h
      next lo heq1 =>
        split at h
        · exact Option.noConfusion h
        next lo2 heq2 =>
          rw [Option.some.injEq, Prod.mk.injEq] at h
          obtain ⟨hl2, hoffs⟩ := h
          obtain ⟨hoff1, hcfg1, _, ⟨vss1, hinv1, hflat1⟩, _⟩ :=
            log_append_inv l base vss hinv v 0 lo.1 lo.2 heq1
          have hinv1b : SegsInv lo.1.config base vss1 lo.1.segments := by
            rw [hcfg1]
            exact hinv1
          obtain ⟨hcfg2, hoffs2, vss2, hinv2, hflat2⟩ :=
            ih lo.1 vss1 hinv1b lo2.1 lo2.2 heq2
          have hlen1 : vss1.flatten.length = vss.flatten.length + 1 := by
            rw [hflat1, List.length_append]
            rfl
          refine ⟨by rw [← hl2, hcfg2, hcfg1], ?_, vss2, ?_, ?_⟩
          · rw [← hoffs, hoffs2, hlen1, hoff1]
            simp only [List.length_cons]
            rw [List.range'_succ, ← Nat.add_assoc]
          · rw [← hl2]
            rw [hcfg1] at hinv2
            exact hinv2
          · rw [hflat2, hflat1, List.append_assoc]
            rfl

/-! ### Truncation keeps exactly the segments past the boundary -/

theorem segsInv_filter_all (c : Config) (base : Nat) (vss : List (List (List Nat)))
    (segs : List Segment) (h : SegsInv c base vss segs)
    (lowest : Nat) (hlow : lowest + 1 < base) :
    segs.filter (fun s => decide (lowest + 1 < s.nextOffset)) = segs := by
  induction vss generalizing base segs with
  | nil =>
      cases segs with
      | nil => rfl
      | cons s ss => exact h.elim
  | cons ws vss ih =>
      cases segs with
      | nil => exact h.elim
      | cons s ss =>
          obtain ⟨h1, h2⟩ := h
          rw [List.filter_cons_of_pos
            (by simp only [decide_eq_true_eq]; rw [h1.2.2.2.1]; omega)]
          rw [ih (base + ws.length) ss h2 (by omega)]

theorem segsInv_truncate (c : Config) (base : Nat) (vss : List (List (List Nat)))
    (segs : List Segment) (h : SegsInv c base vss segs) (lowest : Nat) :
    ∃ k, k ≤ vss.length ∧
      segs.filter (fun s => decide (lowest + 1 < s.nextOffset)) = segs.drop k ∧
      SegsInv c (base + (vss.take k).flatten.length) (vss.drop k) (segs.drop k) ∧
      (k = 0 ∨ base + (vss.take k).flatten.length ≤ lowest + 1) := by
  induction vss generalizing base segs with
  | nil =>
      cases segs with
      | nil => exact ⟨0, Nat.le_refl 0, rfl, trivial, Or.inl rfl⟩
      | cons s ss => exact h.elim
  | cons ws vss ih =>
      cases segs with
      | nil => exact h.elim
      | cons s ss =>
          obtain ⟨h1, h2⟩ := h
          by_cases hkeep : lowest + 1 < s.nextOffset
          · refine ⟨0, Nat.zero_le _, ?_, ⟨h1, h2⟩, Or.inl rfl⟩
            rw [List.filter_cons_of_pos (by simp only [decide_eq_true_eq]; omega)]
            rw [segsInv_filter_all c (base + ws.length) vss ss h2 lowest
              (by rw [← h1.2.2.2.1]; omega)]
            rfl
          · obtain ⟨k, hk, hfil, hinv2, hor⟩ := ih (base + ws.length) ss h2
            have htake : ((ws :: vss).take (k + 1)).flatten.length
                = ws.length + ((vss.take k).flatten.length) := by
              rw [List.take_succ_cons, List.flatten_cons, List.length_append]
            refine ⟨k + 1, by simp only [List.length_cons]; omega, ?_, ?_, ?_⟩
            · rw [List.filter_cons_of_neg (by simp only [decide_eq_true_eq]; omega)]
              rw [hfil]
              rfl
            · show SegsInv c (base + ((ws :: vss).take (k + 1)).flatten.length)
                (vss.drop k) (ss.drop k)
              rw [htake, ← Nat.add_assoc]
              exact hinv2
            · refine Or.inr ?_
              rcases hor with h0 | hbound
              · subst h0
                rw [htake]
                simp only [List.take_zero, List.flatten_nil, List.length_nil, Nat.add_zero]
                rw [← Nat.add_zero (base + ws.length), ← h1.2.2.2.1]
                · omega
              · rw [htake, ← Nat.add_assoc]
                exact hbound

/-! ### Reopening a closed log -/

theorem segsInv_reopen_map (c : Config) (base : Nat) (vss : List (List (List Nat)))
    (segs : List Segment) (h : SegsInv c base vss segs)
    (hsmall : ∀ ws ∈ vss, ws.length ≤ 4294967296) :
    segs.map (fun s => newSegment s.store s.index s.baseOffset c) = segs := by
  induction vss generalizing base segs with
  | nil =>
      cases segs with
      | nil => rfl
      | cons s ss => exact h.elim
  | cons ws vss ih =>
      cases segs with
      | nil => exact h.elim
      | cons s ss =>
          obtain ⟨h1, h2⟩ := h
          rw [List.map_cons]
          rw [ih (base + ws.length) ss h2 (fun w hw => hsmall w (List.mem_cons_of_mem _ hw))]
          congr 1
          rw [h1.1]
          exact seg_reopen s base ws c h1 (hsmall ws (List.mem_cons_self _ _))

theorem log_reopen_eq (l : Log) (base : Nat) (vss : List (List (List Nat)))
    (hinv : SegsInv l.config base vss l.segments)
    (hsmall : ∀ ws ∈ vss, ws.length ≤ 4294967296) :
    l.reopen = l := by
  unfold Log.reopen
  rw [segsInv_reopen_map l.config base vss l.segments hinv hsmall]

/-! ### Offset range queries under the invariant -/

theorem segsInv_lowest (l : Log) (base : Nat) (vss : List (List (List Nat)))
    (hinv : SegsInv l.config base vss l.segments)
    (hne : l.segments ≠ []) : l.LowestOffset = some base := by
  unfold Log.LowestOffset
  cases hsegs : l.segments with
  | nil => exact absurd hsegs hne
  | cons s ss =>
      have hhead : l.segments.head? = some s := by
        rw [hsegs]
        rfl
      have := segsInv_head l.config base vss l.segments hinv s hhead
      simp only [List.head?_cons, Option.map_some']
      rw [this]

theorem segsInv_highest (l : Log) (base : Nat) (vss : List (List (List Nat)))
    (hinv : SegsInv l.config base vss l.segments)
    (hne : l.segments ≠ []) :
    l.HighestOffset = some (if base + vss.flatten.length = 0 then 0
      else base + vss.flatten.length - 1) := by
  unfold Log.HighestOffset
  rcases List.eq_nil_or_concat l.segments with hnil | ⟨segs0, last, hconcat⟩
  · exact absurd hnil hne
  rw [List.concat_eq_append] at hconcat
  have hlast : l.segments.getLast? = some last := by
    rw [hconcat, List.getLast?_concat]
  have hnext := segsInv_getLast l.config base vss l.segments hinv last hlast
  rw [hlast]
  simp only [Option.map_some']
  rw [hnext]

/-! ### Consequences of a zero MaxStoreBytes configuration -/

theorem segsInv_config (c : Config) (base : Nat) (vss : List (List (List Nat)))
    (segs : List Segment) (h : SegsInv c base vss segs) :
    ∀ s ∈ segs, s.config = c := by
  induction vss generalizing base segs with
  | nil =>
      cases segs with
      | nil => intro s hs; exact absurd hs (List.not_mem_nil s)
      | cons s ss => exact h.elim
  | cons ws vss ih =>
      cases segs with
      | nil => exact h.elim
      | cons s ss =>
          obtain ⟨h1, h2⟩ := h
          intro t ht
          rcases List.mem_cons.mp ht with heq | hmem
          · rw [heq]
            exact h1.2.1
          · exact ih (base + ws.length) ss h2 t hmem

theorem isMaxed_zero (s : Segment) (h : s.config.Segment.MaxStoreBytes = 0) :
    s.IsMaxed = true := by
  unfold Segment.IsMaxed
  rw [h]
  simp

theorem log_appendAll_zero (vs : List (List Nat)) (l : Log) (base : Nat)
    (vss : List (List (List Nat)))
    (hc : l.config.Segment.MaxStoreBytes = 0)
    (hinv : SegsInv l.config base vss l.segments)
    (l2 : Log) (offs : List Nat)
    (h : l.AppendAll vs = some (l2, offs)) :
    ∃ ts, l2.segments = l.segments ++ ts ∧ ts.length = vs.length ∧
      ∀ i s, ts[i]? = some s →
        s.baseOffset = base + vss.flatten.length + i ∧
        s.nextOffset = s.baseOffset + 1 := by
  induction vs generalizing l vss l2 offs with
  | nil =>
      unfold Log.AppendAll at h
      rw [Option.some.injEq, Prod.mk.injEq] at h
      obtain ⟨hl, _⟩ := h
      subst hl
      exact ⟨[], by simp, rfl, fun i s hs => by simp at hs⟩
  | cons v rest ih =>
      unfold Log.AppendAll at h
      split at h
      · exact Option.noConfusion h
      next lo heq1 =>
        split at h
        · exact Option.noConfusion h
        next lo2 heq2 =>
          rw [Option.some.injEq, Prod.mk.injEq] at h
          obtain ⟨hl2, _⟩ := h
          rcases List.eq_nil_or_concat l.segments with hnil | ⟨segs0, act, hconcat⟩
          · unfold Log.Append at heq1
            rw [hnil] at heq1
            exact Option.noConfusion heq1
          rw [List.concat_eq_append] at hconcat
          have hlast : l.segments.getLast? = some act := by
            rw [hconcat, List.getLast?_concat]
          have hactcfg : act.config = l.config :=
            segsInv_config l.config base vss l.segments hinv act
              (by rw [hconcat]; exact List.mem_append_right _ (List.mem_singleton.mpr rfl))
          have hmaxed : act.IsMaxed = true := by
            apply isMaxed_zero
            rw [hactcfg]
            exact hc
          have hactnext : act.nextOffset = base + vss.flatten.length :=
            segsInv_getLast l.config base vss l.segments hinv act hlast
          obtain ⟨_, hcfg1, _, ⟨vss1, hinv1, hflat1⟩, hstruct⟩ :=
            log_append_inv l base vss hinv v 0 lo.1 lo.2 heq1
          obtain ⟨t, hseg1, htbase, htnext⟩ := (hstruct act hlast).1 hmaxed
          have hinv1b : SegsInv lo.1.config base vss1 lo.1.segments := by
            rw [hcfg1]
            exact hinv1
          have hc1 : lo.1.config.Segment.MaxStoreBytes = 0 := by
            rw [hcfg1]
            exact hc
          obtain ⟨ts2, hseg2, hlen2, hts2⟩ := ih lo.1 vss1 hc1 hinv1b lo2.1 lo2.2 heq2
          have hlen1 : vss1.flatten.length = vss.flatten.length + 1 := by
            rw [hflat1, List.length_append]
            rfl
          refine ⟨t :: ts2, ?_, by simp [hlen2], ?_⟩
          · rw [← hl2, hseg2, hseg1, List.append_assoc]
            rfl
          · intro i s hs
            cases i with
            | zero =>
                rw [List.getElem?_cons_zero, Option.some.injEq] at hs
                subst hs
                constructor
                · rw [htbase, hactnext]
                  rfl
                · rw [htnext, htbase]
            | succ j =>
                rw [List.getElem?_cons_succ] at hs
                obtain ⟨hsb, hsn⟩ := hts2 j s hs
                constructor
                · rw [hsb, hlen1]
                  omega
                · exact hsn

/-! ### The fresh log satisfies the invariant, and configuration defaulting -/

theorem newLog_inv (c : Config) :
    SegsInv (NewLog c).config ((NewLogConfig c).Segment.InitialOffset) [[]]
      (NewLog c).segments :=
  ⟨seg_fresh_inv _ _, trivial⟩

theorem NewLogConfig_MaxStoreBytes (c : Config) :
    (NewLogConfig c).Segment.MaxStoreBytes = c.Segment.MaxStoreBytes := by
  unfold NewLogConfig
  split <;> (dsimp only; split <;> rfl)

theorem NewLogConfig_InitialOffset (c : Config) :
    (NewLogConfig c).Segment.InitialOffset = c.Segment.InitialOffset := by
  unfold NewLogConfig
  split <;> (dsimp only; split <;> rfl)

theorem NewLogConfig_MaxIndexBytes_of_zero_store (c : Config)
    (h : c.Segment.MaxStoreBytes = 0) :
    (NewLogConfig c).Segment.MaxIndexBytes = 1024 := by
  unfold NewLogConfig
  rw [if_pos h]
  dsimp only
  split
  · rfl
  · rfl

/-- The index read of relative offset -1 returns exactly the last entry. -/
theorem index_read_last (ix : Index) : ix.Read (-1) = ix.entries.getLast? := by
  unfold Index.Read
  by_cases h0 : ix.entries.length = 0
  · rw [if_pos rfl, if_pos (by omega)]
    rw [List.length_eq_zero.mp h0]
    rfl
  · rw [if_pos rfl, if_neg (by omega)]
    have htn : (((ix.entries.length : Int) - 1)).toNat = ix.entries.length - 1 := by omega
    rw [htn, List.getLast?_eq_getElem?]

/-! ### The lock discipline, transcribed from the log source

Each operation of the Go log acquires the readers/writer mutex once on entry
and releases it once (through defer) on exit; `LockUse` records which mode
each call uses, read off the source line by line. -/

inductive LockMode where
  | shared
  | exclusive
  deriving DecidableEq, Repr

structure LockUse where
  acquire : LockMode
  release : LockMode
  deriving DecidableEq, Repr

/-- From Log.Append (log lines 140 to 141): mu.Lock then deferred mu.Unlock;
rollover happens inside the same critical section. -/
def appendLockUse : LockUse := ⟨LockMode.exclusive, LockMode.exclusive⟩

/-- From Log.Read (log lines 153 to 154): mu.Lock then deferred mu.RUnlock. -/
def readLockUse : LockUse := ⟨LockMode.exclusive, LockMode.shared⟩

/-- From Log.Close (log lines 175 to 176): mu.Lock then deferred mu.Unlock;
Remove and Reset delegate to Close for their locking. -/
def closeLockUse : LockUse := ⟨LockMode.exclusive, LockMode.exclusive⟩

/-- From Log.LowestOffset (log lines 207 to 208): mu.Lock then deferred
mu.RUnlock. -/
def lowestOffsetLockUse : LockUse := ⟨LockMode.exclusive, LockMode.shared⟩

/-- From Log.HighestOffset (log lines 213 to 214): mu.Lock then deferred
mu.RUnlock. -/
def highestOffsetLockUse : LockUse := ⟨LockMode.exclusive, LockMode.shared⟩

/-- From Log.Truncate (log lines 227 to 228): mu.Lock then deferred
mu.Unlock. -/
def truncateLockUse : LockUse := ⟨LockMode.exclusive, LockMode.exclusive⟩

/-- From Log.Reader (log lines 249 to 250): mu.Lock then deferred
mu.RUnlock. -/
def readerLockUse : LockUse := ⟨LockMode.exclusive, LockMode.shared⟩

/-- A lock use is consistent when the released mode matches the acquired
mode. -/
def lockConsistent (u : LockUse) : Prop := u.acquire = u.release

/-! ### Claim theorems -/

theorem getElem?_some_lt {α : Type} (l : List α) (i : Nat) (a : α)
    (h : l[i]? = some a) : i < l.length := by
  by_contra hlt
  rw [List.getElem?_eq_none (Nat.le_of_not_lt hlt)] at h
  exact Option.noConfusion h

/-- C1: for every sequence of successful appends to a freshly created log,
reading back any offset returned by Append yields a record whose payload
bytes equal the payload appended at that position (round-trip through the
segment store, the index lookup and the record serialization). -/
theorem C1_append_read_roundtrip (c : Config) (vs : List (List Nat))
    (l2 : Log) (offs : List Nat)
    (h : (NewLog c).AppendAll vs = some (l2, offs))
    (hb : (NewLogConfig c).Segment.InitialOffset + vs.length < 9223372036854775808)
    (hlens : ∀ v ∈ vs, 8 + v.length < 18446744073709551616)
    (i : Nat) (off : Nat) (v : List Nat)
    (hoff : offs[i]? = some off) (hv : vs[i]? = some v) :
    l2.Read off = ReadResult.ok ⟨v, off⟩ := by
  obtain ⟨hcfg, hoffs, vss2, hinv2, hflat2⟩ :=
    log_appendAll_inv vs (NewLog c) ((NewLogConfig c).Segment.InitialOffset) [[]]
      (newLog_inv c) l2 offs h
  simp only [List.flatten_cons, List.flatten_nil, List.append_nil, List.nil_append,
    List.length_nil, Nat.add_zero] at hoffs hflat2
  have hi : i < vs.length := getElem?_some_lt vs i v hv
  have hoffeq : off = (NewLogConfig c).Segment.InitialOffset + i := by
    rw [hoffs, List.getElem?_range' _ _ hi, Option.some.injEq] at hoff
    omega
  have hread := segsInv_read_at (NewLog c).config
      ((NewLogConfig c).Segment.InitialOffset) vss2 l2.segments hinv2 i v
      (by rw [hflat2]; exact hv)
      (by rw [hflat2]; exact hb)
      (by rw [hflat2]; exact hlens)
  show readSegments l2.segments off = ReadResult.ok ⟨v, off⟩
  rw [hoffeq]
  exact hread

def c1Cfg : Config := ⟨⟨100, 1024, 0⟩⟩

def c1Log : Log :=
  match (NewLog c1Cfg).AppendAll [[1, 2], [3]] with
  | some lo => lo.1
  | none => NewLog c1Cfg

theorem C1_witness :
    (NewLog c1Cfg).AppendAll [[1, 2], [3]] = some (c1Log, [0, 1]) ∧
    c1Log.Read 1 = ReadResult.ok ⟨[3], 1⟩ :=
  ⟨by decide,
   C1_append_read_roundtrip c1Cfg [[1, 2], [3]] c1Log [0, 1] (by decide) (by decide)
     (by decide) 1 1 [3] (by decide) (by decide)⟩

/-- C2: appending N records to a log freshly created with initial offset 0
returns exactly the offsets 0, 1, up to N - 1, in order, across rollovers
included. -/
theorem C2_offsets_sequential (c : Config) (vs : List (List Nat))
    (l2 : Log) (offs : List Nat)
    (hinit : c.Segment.InitialOffset = 0)
    (h : (NewLog c).AppendAll vs = some (l2, offs)) :
    offs = List.range vs.length := by
  obtain ⟨_, hoffs, _⟩ :=
    log_appendAll_inv vs (NewLog c) ((NewLogConfig c).Segment.InitialOffset) [[]]
      (newLog_inv c) l2 offs h
  simp only [List.flatten_cons, List.flatten_nil, List.append_nil, List.nil_append,
    List.length_nil, Nat.add_zero] at hoffs
  rw [hoffs, NewLogConfig_InitialOffset, hinit, List.range_eq_range']

def c2Cfg : Config := ⟨⟨32, 0, 0⟩⟩

def c2Log : Log :=
  match (NewLog c2Cfg).AppendAll [[1, 2, 3], [4, 5], [6]] with
  | some lo => lo.1
  | none => NewLog c2Cfg

theorem C2_witness :
    (NewLog c2Cfg).AppendAll [[1, 2, 3], [4, 5], [6]] = some (c2Log, [0, 1, 2]) ∧
    [0, 1, 2] = List.range 3 :=
  ⟨by decide,
   C2_offsets_sequential c2Cfg [[1, 2, 3], [4, 5], [6]] c2Log [0, 1, 2] (by decide)
     (by decide)⟩

/-- C3: on any log state reachable enough to satisfy the invariant, reading
an offset at or past HighestOffset plus one fails with offsetOutOfRange
carrying exactly the requested offset; on a logically empty log every read
fails the same way. -/
theorem C3_read_out_of_range (l : Log) (base : Nat) (vss : List (List (List Nat)))
    (hinv : SegsInv l.config base vss l.segments)
    (off h0 : Nat) (hh : l.HighestOffset = some h0)
    (hcase : h0 + 1 ≤ off ∨ vss.flatten = []) :
    l.Read off = ReadResult.error (LogError.offsetOutOfRange off) := by
  have hne : l.segments ≠ [] := by
    intro hnil
    unfold Log.HighestOffset at hh
    rw [hnil] at hh
    exact Option.noConfusion hh
  have hh2 := segsInv_highest l base vss hinv hne
  rw [hh, Option.some.injEq] at hh2
  show readSegments l.segments off = ReadResult.error (LogError.offsetOutOfRange off)
  rcases hcase with hge | hempty
  · by_cases hz : base + vss.flatten.length = 0
    · exact segsInv_read_high l.config base vss l.segments hinv off (by omega)
    · rw [if_neg hz] at hh2
      exact segsInv_read_high l.config base vss l.segments hinv off (by omega)
  · have hzlen : vss.flatten.length = 0 := by
      rw [hempty]
      rfl
    by_cases hlow : off < base
    · exact segsInv_read_low l.config base vss l.segments hinv off hlow
    · exact segsInv_read_high l.config base vss l.segments hinv off (by omega)

def c3Cfg : Config := ⟨⟨32, 0, 0⟩⟩

def c3Log : Log :=
  match (NewLog c3Cfg).AppendAll [[7, 7]] with
  | some lo => lo.1
  | none => NewLog c3Cfg

theorem C3_witness :
    SegsInv c3Log.config 0 [[[7, 7]]] c3Log.segments ∧
    c3Log.HighestOffset = some 0 ∧
    c3Log.Read 1 = ReadResult.error (LogError.offsetOutOfRange 1) :=
  ⟨by decide, by decide,
   C3_read_out_of_range c3Log 0 [[[7, 7]]] (by decide) 1 0 (by decide)
     (Or.inl (by decide))⟩

def c4Cfg : Config := ⟨⟨100, 1024, 0⟩⟩

def c4Log : Log :=
  match (NewLog c4Cfg).AppendAll [[1, 2], [3, 4], [5, 6]] with
  | some lo => lo.1
  | none => NewLog c4Cfg

/-- C4 as frozen is falsified by the straddling-segment case: here a log
whose single segment holds offsets 0, 1 and 2 is truncated at lowest = 1;
the segment survives (its nextOffset 3 exceeds lowest + 1) and offset 0,
although not greater than lowest, is still readable rather than failing
with offsetOutOfRange. -/
theorem C4_counterexample :
    (c4Log.Truncate 1).Read 0 = ReadResult.ok ⟨[1, 2], 0⟩ ∧
    ¬ (c4Log.Truncate 1).Read 0 = ReadResult.error (LogError.offsetOutOfRange 0) := by
  constructor
  · decide
  · decide

/-- C4 amended: Truncate removes exactly the segments whose nextOffset is at
most lowest + 1, preserving the order of the rest; afterwards every offset
below the first surviving baseOffset reads as offsetOutOfRange, and every
stored offset greater than lowest is still readable with unchanged
payload. -/
theorem C4_truncate_amended (l : Log) (base : Nat) (vss : List (List (List Nat)))
    (hinv : SegsInv l.config base vss l.segments) (lowest : Nat)
    (hb : base + vss.flatten.length < 9223372036854775808)
    (hlens : ∀ w ∈ vss.flatten, 8 + w.length < 18446744073709551616) :
    ((l.Truncate lowest).segments
        = l.segments.filter fun s => decide (lowest + 1 < s.nextOffset)) ∧
    (∀ off s0, (l.Truncate lowest).segments.head? = some s0 → off < s0.baseOffset →
        (l.Truncate lowest).Read off
          = ReadResult.error (LogError.offsetOutOfRange off)) ∧
    (∀ i v, vss.flatten[i]? = some v → lowest < base + i →
        (l.Truncate lowest).Read (base + i) = ReadResult.ok ⟨v, base + i⟩) := by
  obtain ⟨k, hk, hfil, hinv2, hor⟩ :=
    segsInv_truncate l.config base vss l.segments hinv lowest
  have hsegs : (l.Truncate lowest).segments = l.segments.drop k := hfil
  have hsplit : vss.flatten = (vss.take k).flatten ++ (vss.drop k).flatten := by
    rw [← List.flatten_append, List.take_append_drop]
  have hlensplit : (vss.take k).flatten.length + (vss.drop k).flatten.length
      = vss.flatten.length := by
    conv_rhs => rw [hsplit]
    rw [List.length_append]
  refine ⟨rfl, ?_, ?_⟩
  · intro off s0 hhead hofflow
    show readSegments (l.Truncate lowest).segments off
        = ReadResult.error (LogError.offsetOutOfRange off)
    rw [hsegs] at hhead ⊢
    have hs0base := segsInv_head l.config _ _ _ hinv2 s0 hhead
    exact segsInv_read_low l.config _ _ _ hinv2 off (by omega)
  · intro i v hget hlow2
    have hjk : base + (vss.take k).flatten.length ≤ base + i := by
      rcases hor with h0 | hle
      · subst h0
        simp
      · omega
    rw [hsplit] at hget
    rw [List.getElem?_append_right (by omega)] at hget
    show readSegments (l.Truncate lowest).segments (base + i)
        = ReadResult.ok ⟨v, base + i⟩
    rw [hsegs]
    have harith : base + i = base + (vss.take k).flatten.length
        + (i - (vss.take k).flatten.length) := by omega
    rw [harith]
    refine segsInv_read_at l.config _ _ _ hinv2 _ v hget (by omega) ?_
    intro w hw
    apply hlens
    rw [hsplit]
    exact List.mem_append_right _ hw

theorem C4_witness :
    SegsInv c4Log.config 0 [[[1, 2], [3, 4], [5, 6]]] c4Log.segments ∧
    (c4Log.Truncate 1).Read 2 = ReadResult.ok ⟨[5, 6], 2⟩ :=
  ⟨by decide,
   (C4_truncate_amended c4Log 0 [[[1, 2], [3, 4], [5, 6]]] (by decide) 1 (by decide)
     (by decide)).2.2 2 [5, 6] (by decide) (by decide)⟩

/-- C5: when the active (last) segment is maxed, the next successful Append
creates exactly one new segment whose baseOffset equals the prior active
nextOffset and appends there; when it is not maxed no segment is created;
in both cases every stored record, in the old segments and the new one,
remains readable afterwards. -/
theorem C5_rollover (l : Log) (base : Nat) (vss : List (List (List Nat)))
    (hinv : SegsInv l.config base vss l.segments)
    (act : Segment) (hact : l.segments.getLast? = some act)
    (v : List Nat) (o : Nat) (l2 : Log) (off : Nat)
    (happ : l.Append ⟨v, o⟩ = some (l2, off))
    (hb : base + vss.flatten.length + 1 < 9223372036854775808)
    (hvlen : 8 + v.length < 18446744073709551616)
    (hlens : ∀ w ∈ vss.flatten, 8 + w.length < 18446744073709551616) :
    (act.IsMaxed = true →
       ∃ t, l2.segments = l.segments ++ [t] ∧ t.baseOffset = act.nextOffset) ∧
    (act.IsMaxed = false → l2.segments.length = l.segments.length) ∧
    (∀ i w, (vss.flatten ++ [v])[i]? = some w →
       l2.Read (base + i) = ReadResult.ok ⟨w, base + i⟩) := by
  obtain ⟨hoff, hcfg, _, ⟨vss2, hinv2, hflat2⟩, hstruct⟩ :=
    log_append_inv l base vss hinv v o l2 off happ
  obtain ⟨hmaxcase, hnoncase⟩ := hstruct act hact
  refine ⟨fun hm => ?_, hnoncase, fun i w hget => ?_⟩
  · obtain ⟨t, h1, h2, _⟩ := hmaxcase hm
    exact ⟨t, h1, h2⟩
  · show readSegments l2.segments (base + i) = ReadResult.ok ⟨w, base + i⟩
    refine segsInv_read_at l.config base vss2 l2.segments hinv2 i w
      (by rw [hflat2]; exact hget) ?_ ?_
    · rw [hflat2, List.length_append]
      show base + (vss.flatten.length + 1) < 9223372036854775808
      omega
    · intro u hu
      rw [hflat2] at hu
      rcases List.mem_append.mp hu with huf | hus
      · exact hlens u huf
      · rw [List.mem_singleton.mp hus]
        exact hvlen

def c5Cfg : Config := ⟨⟨32, 1024, 0⟩⟩

def c5Log : Log :=
  match (NewLog c5Cfg).AppendAll [[1, 2, 3], [4, 5]] with
  | some lo => lo.1
  | none => NewLog c5Cfg

def c5Act : Segment :=
  match c5Log.segments.getLast? with
  | some s => s
  | none => freshSegment c5Cfg 0

def c5Step : Log × Nat :=
  match c5Log.Append ⟨[6], 0⟩ with
  | some lo => lo
  | none => (c5Log, 0)

theorem C5_witness :
    c5Act.IsMaxed = true ∧
    c5Step.1.segments.length = c5Log.segments.length + 1 ∧
    c5Step.1.Read 2 = ReadResult.ok ⟨[6], 2⟩ :=
  ⟨by decide, by decide,
   (C5_rollover c5Log 0 [[[1, 2, 3], [4, 5]]] (by decide) c5Act (by decide)
     [6] 0 c5Step.1 c5Step.2 (by decide) (by decide) (by decide) (by decide)).2.2
     2 [6] (by decide)⟩

/-- C6: opening a segment over existing files recovers nextOffset as the
baseOffset when the index is empty and as baseOffset plus the relative
offset of the last index entry plus one otherwise; consequently closing and
reopening a log reproduces the same segment states, hence the same
LowestOffset, HighestOffset and reads. -/
theorem C6_reopen_preserves (l : Log) (base : Nat) (vss : List (List (List Nat)))
    (hinv : SegsInv l.config base vss l.segments)
    (hsmall : ∀ ws ∈ vss, ws.length ≤ 4294967296) :
    (∀ (st : Store) (ix : Index) (b : Nat) (c : Config),
       (newSegment st ix b c).nextOffset
         = match ix.entries.getLast? with
           | none => b
           | some e => b + e.1 + 1) ∧
    l.reopen = l ∧
    (l.reopen).LowestOffset = l.LowestOffset ∧
    (l.reopen).HighestOffset = l.HighestOffset ∧
    (∀ off, (l.reopen).Read off = l.Read off) := by
  have hre := log_reopen_eq l base vss hinv hsmall
  refine ⟨?_, hre, by rw [hre], by rw [hre], fun off => by rw [hre]⟩
  intro st ix b c
  show (match ix.Read (-1) with
    | none => b
    | some e => b + e.1 + 1) = _
  rw [index_read_last]

def c6Cfg : Config := ⟨⟨32, 0, 0⟩⟩

def c6Log : Log :=
  match (NewLog c6Cfg).AppendAll [[1, 2, 3], [4, 5], [6]] with
  | some lo => lo.1
  | none => NewLog c6Cfg

theorem C6_witness :
    SegsInv c6Log.config 0 [[[1, 2, 3], [4, 5]], [[6]]] c6Log.segments ∧
    c6Log.reopen = c6Log :=
  ⟨by decide,
   (C6_reopen_preserves c6Log 0 [[[1, 2, 3], [4, 5]], [[6]]] (by decide)
     (by decide)).2.1⟩

/-- C7: for every invariant-satisfying log with at least one segment,
LowestOffset returns the first segment baseOffset and HighestOffset returns
the last segment nextOffset minus one, except that a nextOffset of zero
yields zero, so no unsigned underflow occurs on a log that never held a
record. -/
theorem C7_offset_queries (l : Log) (base : Nat) (vss : List (List (List Nat)))
    (hinv : SegsInv l.config base vss l.segments) (hne : l.segments ≠ []) :
    l.LowestOffset = some base ∧
    (∀ s, l.segments.head? = some s → l.LowestOffset = some s.baseOffset) ∧
    (∀ t, l.segments.getLast? = some t →
        l.HighestOffset = some (if t.nextOffset = 0 then 0 else t.nextOffset - 1)) ∧
    l.HighestOffset = some (if base + vss.flatten.length = 0 then 0
        else base + vss.flatten.length - 1) := by
  refine ⟨segsInv_lowest l base vss hinv hne, ?_, ?_,
    segsInv_highest l base vss hinv hne⟩
  · intro s hs
    rw [segsInv_lowest l base vss hinv hne,
      segsInv_head l.config base vss l.segments hinv s hs]
  · intro t ht
    unfold Log.HighestOffset
    rw [ht]
    rfl

def c7Cfg : Config := ⟨⟨0, 0, 0⟩⟩

def c7Log : Log := NewLog c7Cfg

theorem C7_witness :
    SegsInv c7Log.config 0 [[]] c7Log.segments ∧
    c7Log.LowestOffset = some 0 ∧ c7Log.HighestOffset = some 0 :=
  ⟨by decide,
   (C7_offset_queries c7Log 0 [[]] (by decide) (by decide)).1,
   by decide⟩

/-- C8: in the NewLog configuration defaulting, the branch guarded by
MaxStoreBytes equal to zero assigns the default 1024 to MaxIndexBytes, and
MaxStoreBytes itself is never changed by the defaulting, so it receives no
nonzero default. -/
theorem C8_config_defaulting (c : Config) :
    (NewLogConfig c).Segment.MaxStoreBytes = c.Segment.MaxStoreBytes ∧
    (c.Segment.MaxStoreBytes = 0 →
      (NewLogConfig c).Segment.MaxIndexBytes = 1024) :=
  ⟨NewLogConfig_MaxStoreBytes c,
   fun h => NewLogConfig_MaxIndexBytes_of_zero_store c h⟩

theorem C8_witness :
    (NewLogConfig ⟨⟨0, 5, 7⟩⟩).Segment.MaxStoreBytes = 0 ∧
    (NewLogConfig ⟨⟨0, 5, 7⟩⟩).Segment.MaxIndexBytes = 1024 :=
  ⟨(C8_config_defaulting ⟨⟨0, 5, 7⟩⟩).1,
   (C8_config_defaulting ⟨⟨0, 5, 7⟩⟩).2 rfl⟩

/-- C9: the lock discipline is not consistent as the claim states: the
point-read, lowest-offset, highest-offset and reader-construction paths of
the log acquire the mutex in exclusive mode yet release it in shared mode,
while append, close and truncate acquire and release exclusive mode. -/
theorem C9_lock_discipline :
    readLockUse.acquire = LockMode.exclusive ∧
    readLockUse.release = LockMode.shared ∧
    lowestOffsetLockUse.acquire = LockMode.exclusive ∧
    lowestOffsetLockUse.release = LockMode.shared ∧
    highestOffsetLockUse.acquire = LockMode.exclusive ∧
    highestOffsetLockUse.release = LockMode.shared ∧
    readerLockUse.acquire = LockMode.exclusive ∧
    readerLockUse.release = LockMode.shared ∧
    ¬ lockConsistent readLockUse ∧
    ¬ lockConsistent lowestOffsetLockUse ∧
    ¬ lockConsistent highestOffsetLockUse ∧
    ¬ lockConsistent readerLockUse ∧
    lockConsistent appendLockUse ∧
    lockConsistent closeLockUse ∧
    lockConsistent truncateLockUse := by
  refine ⟨rfl, rfl, rfl, rfl, rfl, rfl, rfl, rfl, ?_, ?_, ?_, ?_, rfl, rfl, rfl⟩
  all_goals intro h
  all_goals exact LockMode.noConfusion h

/-- C10: a configuration with MaxStoreBytes zero keeps it zero through the
defaulting, makes IsMaxed constantly true, and therefore every Append rolls
over into a fresh singleton segment whose baseOffset is the offset of its
only record; N appends on an empty log leave N + 1 segments. -/
theorem C10_zero_store_bytes (c : Config) (h0 : c.Segment.MaxStoreBytes = 0)
    (vs : List (List Nat)) (l2 : Log) (offs : List Nat)
    (h : (NewLog c).AppendAll vs = some (l2, offs)) :
    (NewLogConfig c).Segment.MaxStoreBytes = 0 ∧
    (∀ s : Segment, s.config.Segment.MaxStoreBytes = 0 → s.IsMaxed = true) ∧
    l2.segments.length = vs.length + 1 ∧
    (∀ i s, l2.segments[i + 1]? = some s →
        s.baseOffset = c.Segment.InitialOffset + i ∧
        s.nextOffset = s.baseOffset + 1) := by
  have hc0 : (NewLog c).config.Segment.MaxStoreBytes = 0 := by
    show (NewLogConfig c).Segment.MaxStoreBytes = 0
    rw [NewLogConfig_MaxStoreBytes]
    exact h0
  obtain ⟨ts, hsegs, hlen, hts⟩ :=
    log_appendAll_zero vs (NewLog c) ((NewLogConfig c).Segment.InitialOffset) [[]]
      hc0 (newLog_inv c) l2 offs h
  have hone : (NewLog c).segments.length = 1 := rfl
  refine ⟨hc0, isMaxed_zero, ?_, ?_⟩
  · rw [hsegs, List.length_append, hlen, hone]
    omega
  · intro i s hs
    rw [hsegs, List.getElem?_append_right (by rw [hone]; omega)] at hs
    rw [hone] at hs
    have hidx : i + 1 - 1 = i := by omega
    rw [hidx] at hs
    obtain ⟨hsb, hsn⟩ := hts i s hs
    refine ⟨?_, hsn⟩
    rw [hsb]
    simp only [List.flatten_cons, List.flatten_nil, List.append_nil, List.nil_append,
      List.length_nil, Nat.add_zero]
    rw [NewLogConfig_InitialOffset]

def c10Cfg : Config := ⟨⟨0, 0, 3⟩⟩

def c10Log : Log :=
  match (NewLog c10Cfg).AppendAll [[9], [8]] with
  | some lo => lo.1
  | none => NewLog c10Cfg

theorem C10_witness :
    (NewLog c10Cfg).AppendAll [[9], [8]] = some (c10Log, [3, 4]) ∧
    c10Log.segments.length = 3 ∧
    c10Log.segments.map (fun s => (s.baseOffset, s.nextOffset)) = [(3, 3), (3, 4), (4, 5)] :=
  ⟨by decide,
   (C10_zero_store_bytes c10Cfg (by decide) [[9], [8]] c10Log [3, 4] (by decide)).2.2.1,
   by decide⟩

end DistLog
